import Mathlib

/-!
Verification of `kaldi_helpers` against its natural-language specification.

Part 1 embeds `src/kaldi_helpers/input_scripts/make_prn_dict.py`
(pronunciation-dictionary builder), part 2 embeds `src/src/clean_json.py`
(transcript cleaner).  Words and graphemes are modelled as `List Char`;
phoneme tokens, which the source never inspects, stay `String`.
-/

namespace MakePrnDict

/-- A single letter-to-sound rule: `(grapheme_sequence, phoneme)`.  The source
keeps these as `(str, str)` tuples; only the grapheme is inspected
character-by-character, so it is a `List Char` here. -/
abbrev SoundMapping := List Char × String

/-- The characters removed by Python `str.strip()` from the ends of a line
(space, tab, newline, carriage return, vertical tab, form feed). -/
def stripChars : List Char := [' ', '\t', '\n', '\r', Char.ofNat 11, Char.ofNat 12]

/-- Whether `str.strip()` removes `c`. -/
def isStripChar (c : Char) : Bool := stripChars.contains c

/-- Python `line.strip()`: drop strip-characters from both ends. -/
def pyStrip (l : List Char) : List Char :=
  ((l.dropWhile isStripChar).reverse.dropWhile isStripChar).reverse

/-- Python `s.split(' ', 1)`: split at the first literal space only, keeping
everything after it (spaces included) as the second part; a string without a
space yields a one-element list. -/
def splitOnceOnSpace (l : List Char) : List (List Char) :=
  if (' ' : Char) ∈ l then
    [l.takeWhile (fun c => c ≠ ' '), (l.dropWhile (fun c => c ≠ ' ')).tail]
  else [l]

/-- One line of `parse_configs`: a line whose raw first character is `#` is a
comment and ignored; otherwise the line is stripped, split at the first space,
empty parts are dropped (`filter(None, ...)`), and only a line with at least
two parts contributes a `(grapheme, phoneme)` rule.  (`readlines` never
produces an empty line, so the source's `line[0]` is always defined; on `[]`
this function also yields no rule, matching the strip-and-split path.) -/
def parseConfigLine (line : List Char) : Option SoundMapping :=
  if line.head? = some '#' then none
  else
    match (splitOnceOnSpace (pyStrip line)).filter (fun p => p ≠ []) with
    | g :: p :: _ => some (g, String.mk p)
    | _ => none

/-- The rule list in file order, before sorting. -/
def rawMappings (lines : List (List Char)) : List SoundMapping :=
  lines.filterMap parseConfigLine

/-- Insert `x` into a list sorted by descending grapheme length, after every
element whose grapheme is at least as long: the insertion point of a stable
descending sort. -/
def insertByLen (x : SoundMapping) : List SoundMapping → List SoundMapping
  | [] => [x]
  | y :: ys => if x.1.length ≤ y.1.length then y :: insertByLen x ys else x :: y :: ys

/-- Stable insertion sort by descending grapheme length.  The source calls
`sound_mappings.sort(key=lambda x: len(x[0]), reverse=True)`; Python's sort is
the stable sort for that ordering, and a stable sort is extensionally unique,
so this insertion sort computes the same list. -/
def sortMappings (l : List SoundMapping) : List SoundMapping :=
  l.foldl (fun acc x => insertByLen x acc) []

/-- `parse_configs` minus the file system: parse every line, then sort. -/
def parse_configs (lines : List (List Char)) : List SoundMapping :=
  sortMappings (rawMappings lines)

/-- The pre-sorted-table order relation: the earlier mapping's grapheme is at
least as long as the later one's. -/
def longerEq (a b : SoundMapping) : Prop := b.1.length ≤ a.1.length

/-- The scan of the inner `for maps in sound_mappings` loop:
`token_lower.find(maps[0], current_index) == current_index` holds exactly when
the grapheme is a prefix of the word's suffix at the cursor, and `break` keeps
the first such mapping. -/
def findMapping (mappings : List SoundMapping) (suffix : List Char) :
    Option SoundMapping :=
  mappings.find? (fun m => m.1.isPrefixOf suffix)

/-- The `while current_index < len(token_lower)` loop of `generate_dictionary`,
acting on the suffix of the word at the cursor.  On a match the cursor advances
by the grapheme's length.  On no match the source appends `'(' + c + ')'` and
then calls `oov_characters.add(c)` — but `oov_characters` was initialised as
`{}`, a `dict` despite its `set` annotation, and `dict` has no `add`, so the
run dies with `AttributeError`; that abort is `Except.error c`.  `fuel` bounds
the iteration count: callers pass the suffix length, which suffices because
every grapheme produced by `parse_configs` is non-empty, so each surviving
iteration consumes at least one character. -/
def buildTokens (mappings : List SoundMapping) : Nat → List Char → Except Char (List String)
  | _, [] => Except.ok []
  | 0, _ :: _ => Except.ok []
  | fuel + 1, c :: rest =>
    match findMapping mappings (c :: rest) with
    | some m =>
        Except.map (fun ts => m.2 :: ts)
          (buildTokens mappings fuel (List.drop m.1.length (c :: rest)))
    | none => Except.error c

/-- One word's dictionary entry `res`: the original token followed by the
phonemes of its lower-cased form (`token_lower = token.lower()`). -/
def wordEntry (mappings : List SoundMapping) (token : List Char) :
    Except Char (List String) :=
  let tl := token.map Char.toLower
  Except.map (fun ts => String.mk token :: ts) (buildTokens mappings tl.length tl)

/-- All word entries in wordlist order; the first unmatched character anywhere
aborts the run. -/
def generateEntries (mappings : List SoundMapping) :
    List (List Char) → Except Char (List (List String))
  | [] => Except.ok []
  | w :: ws => do
    let e ← wordEntry mappings w
    let rest ← generateEntries mappings ws
    Except.ok (e :: rest)

/-- The lines `generate_dictionary` writes on a successful run: the two fixed
headers, then one space-joined entry per word. -/
def generateLexicon (mappings : List SoundMapping) (words : List (List Char)) :
    Except Char (List String) :=
  Except.map
    (fun es => "!SIL sil" :: "<UNK> spn" :: es.map (String.intercalate " "))
    (generateEntries mappings words)

/-- The token loop as the spec (and the source's own `set` annotation and
OOV-reporting loop) intends it: an unmatched character `c` contributes the
pass-through token `(c)`, is recorded, the cursor advances by 1 and the run
continues.  Returns the phoneme tokens and the OOV characters in encounter
order. -/
def buildTokensIntended (mappings : List SoundMapping) :
    Nat → List Char → List String × List Char
  | _, [] => ([], [])
  | 0, _ :: _ => ([], [])
  | fuel + 1, c :: rest =>
    match findMapping mappings (c :: rest) with
    | some m =>
        let r := buildTokensIntended mappings fuel (List.drop m.1.length (c :: rest))
        (m.2 :: r.1, r.2)
    | none =>
        let r := buildTokensIntended mappings fuel rest
        (String.mk ['(', c, ')'] :: r.1, c :: r.2)

/-- One word's entry under the intended OOV handling. -/
def wordEntryIntended (mappings : List SoundMapping) (token : List Char) :
    List String × List Char :=
  let tl := token.map Char.toLower
  let r := buildTokensIntended mappings tl.length tl
  (String.mk token :: r.1, r.2)

/-- The C3 example table, already in its sorted order. -/
def exampleTable : List SoundMapping :=
  [("th".toList, "T"), ("e".toList, "E"), ("t".toList, "t"), ("h".toList, "h")]

lemma insertByLen_perm (x : SoundMapping) (l : List SoundMapping) :
    (insertByLen x l).Perm (x :: l) := by
  induction l with
  | nil => simp [insertByLen]
  | cons y ys ih =>
    unfold insertByLen
    by_cases h : x.1.length ≤ y.1.length
    · simp only [if_pos h]
      exact (ih.cons y).trans (List.Perm.swap x y ys)
    · simp [if_neg h]

lemma mem_insertByLen {a x : SoundMapping} {l : List SoundMapping}
    (h : a ∈ insertByLen x l) : a = x ∨ a ∈ l := by
  have := (insertByLen_perm x l).mem_iff.mp h
  simpa using this

lemma pairwise_insertByLen (x : SoundMapping) {l : List SoundMapping}
    (h : List.Pairwise longerEq l) :
    List.Pairwise longerEq (insertByLen x l) := by
  induction l with
  | nil => simp [insertByLen, List.pairwise_cons]
  | cons y ys ih =>
    rw [List.pairwise_cons] at h
    unfold insertByLen
    by_cases hle : x.1.length ≤ y.1.length
    · simp only [if_pos hle]
      rw [List.pairwise_cons]
      refine ⟨fun z hz => ?_, ih h.2⟩
      rcases mem_insertByLen hz with rfl | hz
      · exact hle
      · exact h.1 z hz
    · simp only [if_neg hle]
      rw [List.pairwise_cons]
      refine ⟨fun z hz => ?_, List.pairwise_cons.mpr h⟩
      rcases List.mem_cons.mp hz with rfl | hz
      · exact Nat.le_of_lt (Nat.lt_of_not_le hle)
      · exact Nat.le_trans (h.1 z hz) (Nat.le_of_lt (Nat.lt_of_not_le hle))

lemma filter_insertByLen (x : SoundMapping) {l : List SoundMapping} (k : Nat)
    (h : List.Pairwise longerEq l) :
    (insertByLen x l).filter (fun m => m.1.length == k)
      = l.filter (fun m => m.1.length == k)
        ++ (if x.1.length = k then [x] else []) := by
  induction l with
  | nil =>
    simp only [insertByLen, List.filter_cons, List.filter_nil, List.nil_append]
    by_cases hx : x.1.length = k <;> simp [hx]
  | cons y ys ih =>
    rw [List.pairwise_cons] at h
    unfold insertByLen
    by_cases hle : x.1.length ≤ y.1.length
    · simp only [if_pos hle, List.filter_cons]
      by_cases hy : y.1.length = k <;> simp [hy, ih h.2, List.append_assoc]
    · simp only [if_neg hle, List.filter_cons]
      by_cases hx : x.1.length = k
      · have hys : (List.filter (fun m => m.1.length == k) (y :: ys)) = [] := by
          rw [List.filter_eq_nil_iff]
          intro a ha
          have halt : a.1.length ≤ y.1.length := by
            rcases List.mem_cons.mp ha with rfl | ha
            · exact Nat.le_refl _
            · exact h.1 a ha
          have : a.1.length < k := Nat.lt_of_le_of_lt halt (hx ▸ Nat.lt_of_not_le hle)
          simp [Nat.ne_of_lt this]
        rw [List.filter_cons] at hys
        simp only [beq_iff_eq] at hys
        simp [hx, hys]
      · simp [hx]

lemma foldl_insertByLen_spec (l : List SoundMapping) :
    ∀ acc : List SoundMapping, List.Pairwise longerEq acc →
      List.Pairwise longerEq (l.foldl (fun a x => insertByLen x a) acc) ∧
      ∀ k : Nat,
        (l.foldl (fun a x => insertByLen x a) acc).filter (fun m => m.1.length == k)
          = acc.filter (fun m => m.1.length == k)
            ++ l.filter (fun m => m.1.length == k) := by
  induction l with
  | nil => intro acc hacc; simpa using hacc
  | cons x xs ih =>
    intro acc hacc
    rw [List.foldl_cons]
    obtain ⟨hp, hf⟩ := ih (insertByLen x acc) (pairwise_insertByLen x hacc)
    refine ⟨hp, fun k => ?_⟩
    rw [hf k, filter_insertByLen x k hacc, List.append_assoc, List.filter_cons]
    by_cases hx : x.1.length = k <;> simp [hx]

lemma find?_first_longest (p : SoundMapping → Bool) :
    ∀ (l : List SoundMapping) (m : SoundMapping), List.Pairwise longerEq l →
      l.find? p = some m →
      p m = true ∧ m ∈ l ∧ ∀ m' ∈ l, p m' = true → m'.1.length ≤ m.1.length := by
  intro l
  induction l with
  | nil => intro m _ hfind; simp [List.find?] at hfind
  | cons y ys ih =>
    intro m hpair hfind
    rw [List.pairwise_cons] at hpair
    cases hy : p y with
    | true =>
      rw [List.find?_cons_of_pos _ hy] at hfind
      obtain rfl : y = m := by injection hfind
      refine ⟨hy, List.mem_cons_self _ _, fun m' hm' _ => ?_⟩
      rcases List.mem_cons.mp hm' with rfl | hm'
      · exact Nat.le_refl _
      · exact hpair.1 m' hm'
    | false =>
      rw [List.find?_cons_of_neg _ (by simp [hy])] at hfind
      obtain ⟨h1, h2, h3⟩ := ih m hpair.2 hfind
      refine ⟨h1, List.mem_cons_of_mem _ h2, fun m' hm' hp' => ?_⟩
      rcases List.mem_cons.mp hm' with rfl | hm'
      · rw [hy] at hp'; exact absurd hp' (by simp)
      · exact h3 m' hm' hp'

lemma dropWhile_eq_self_of_head (q : Char → Bool) (l : List Char)
    (h : ∀ d, l.head? = some d → q d = false) : l.dropWhile q = l := by
  cases l with
  | nil => rfl
  | cons a l => simp [List.dropWhile_cons, h a rfl]

lemma pyStrip_eq_self (l : List Char)
    (h1 : ∀ d, l.head? = some d → isStripChar d = false)
    (h2 : ∀ d, l.getLast? = some d → isStripChar d = false) : pyStrip l = l := by
  unfold pyStrip
  rw [dropWhile_eq_self_of_head _ _ h1]
  rw [dropWhile_eq_self_of_head _ _ (by simpa using h2), List.reverse_reverse]

lemma takeWhile_append_of_all (q : Char → Bool) (l1 l2 : List Char)
    (h : ∀ a ∈ l1, q a = true) :
    (l1 ++ l2).takeWhile q = l1 ++ l2.takeWhile q := by
  induction l1 with
  | nil => rfl
  | cons a l1 ih =>
    have h1 := h a (List.mem_cons_self a l1)
    have h2 := ih fun b hb => h b (List.mem_cons_of_mem a hb)
    simp [List.takeWhile_cons, h1, h2]

lemma dropWhile_append_of_all (q : Char → Bool) (l1 l2 : List Char)
    (h : ∀ a ∈ l1, q a = true) :
    (l1 ++ l2).dropWhile q = l2.dropWhile q := by
  induction l1 with
  | nil => rfl
  | cons a l1 ih =>
    have h1 := h a (List.mem_cons_self a l1)
    have h2 := ih fun b hb => h b (List.mem_cons_of_mem a hb)
    simp [List.dropWhile_cons, h1, h2]

instance : DecidableRel longerEq :=
  fun a b => inferInstanceAs (Decidable (b.1.length ≤ a.1.length))

/-- Claim C1: the spec says an unmatched character degrades to a pass-through
token `(c)`, is recorded in the OOV set, and the run continues.  That is the
source's clear intent (the `oov_characters: set` annotation and the final
OOV-report loop), and `buildTokensIntended` realises it, producing exactly the
claimed entry and OOV characters for "xyz".  The code as written, however,
initialises `oov_characters` as `{}` — a `dict` — so the very first unmatched
character raises `AttributeError` at `oov_characters.add` and halts the run:
the faithful embedding aborts with `Except.error 'x'`. -/
theorem generate_dictionary_oov_crash :
    wordEntry [] (String.toList "xyz") = Except.error 'x'
    ∧ wordEntryIntended [] (String.toList "xyz")
        = (["xyz", "(x)", "(y)", "(z)"], ['x', 'y', 'z']) := by
  exact ⟨rfl, rfl⟩

/-- Claim C2: on the wordlist `["x"]` with an empty mapping table the claimed
output is the two headers plus the entry `x (x)` (three lines), but the run
dies with `AttributeError` on the unmatched character before the entry is
written, so the lexicon never gets its per-word line. -/
theorem generate_dictionary_crash_truncates :
    generateLexicon [] [String.toList "x"] = Except.error 'x' := by
  exact rfl

/-- Claim C3: at each cursor position the first mapping in table order whose
grapheme matches at the cursor is accepted (its phoneme is appended and the
cursor advances by the grapheme length); when the table is sorted descending
by grapheme length, the accepted mapping's grapheme is at least as long as any
other matching grapheme; and the word "the" against the example table yields
the entry `["the", "T", "E"]`. -/
theorem generate_dictionary_first_match :
    (∀ (mappings : List SoundMapping) (fuel : Nat) (c : Char) (rest : List Char)
        (m : SoundMapping),
        findMapping mappings (c :: rest) = some m →
        buildTokens mappings (fuel + 1) (c :: rest)
          = Except.map (fun ts => m.2 :: ts)
              (buildTokens mappings fuel (List.drop m.1.length (c :: rest))))
    ∧ (∀ (mappings : List SoundMapping) (suffix : List Char) (m : SoundMapping),
        List.Pairwise longerEq mappings →
        findMapping mappings suffix = some m →
        m.1.isPrefixOf suffix = true ∧ m ∈ mappings ∧
          ∀ m' ∈ mappings, m'.1.isPrefixOf suffix = true →
            m'.1.length ≤ m.1.length)
    ∧ wordEntry exampleTable (String.toList "the") = Except.ok ["the", "T", "E"] := by
  refine ⟨fun mappings fuel c rest m h => ?_, ?_, rfl⟩
  · simp [buildTokens, h]
  · intro mappings suffix m hpair hfind
    exact find?_first_longest (fun m => m.1.isPrefixOf suffix) mappings m hpair hfind

/-- Witness for C3: the second conjunct applied to the example table, the word
"the" at cursor 0, and the accepted mapping `("th", "T")`. -/
theorem generate_dictionary_first_match_witness :
    (("th".toList, "T") : SoundMapping).1.isPrefixOf (String.toList "the") = true
    ∧ (("th".toList, "T") : SoundMapping) ∈ exampleTable
    ∧ ∀ m' ∈ exampleTable, m'.1.isPrefixOf (String.toList "the") = true →
        m'.1.length ≤ (("th".toList, "T") : SoundMapping).1.length :=
  generate_dictionary_first_match.2.1 exampleTable (String.toList "the")
    ("th".toList, "T") (by decide) (by decide)

/-- Claim C4: for every mapping config the table produced by `parse_configs`
is sorted descending by grapheme length (no later grapheme is longer than an
earlier one), and for every length the subsequence of rules of that length is
exactly the rules of that length in file order — the sort is stable. -/
theorem parse_configs_sorted_stable (lines : List (List Char)) :
    List.Pairwise longerEq (parse_configs lines) ∧
    ∀ k : Nat, (parse_configs lines).filter (fun m => m.1.length == k)
      = (rawMappings lines).filter (fun m => m.1.length == k) := by
  obtain ⟨h1, h2⟩ := foldl_insertByLen_spec (rawMappings lines) [] List.Pairwise.nil
  exact ⟨h1, fun k => by simpa using h2 k⟩

/-- Counterexample for C9: the claim admits any whitespace between grapheme
and phoneme, but `parse_configs` splits only on a literal space, so the
tab-separated rule `a<TAB>b` — well-formed per the claim — is skipped instead
of yielding the mapping `("a", "b")`. -/
theorem parse_configs_tab_not_accepted :
    parseConfigLine (String.toList "a\tb") = none := by
  exact rfl

/-- Claim C9 (amended): a line whose raw first character is `#` is ignored; a
line with no literal-space separator after stripping (including tab-separated
lines) is silently skipped; and a line `<grapheme><space><phoneme...>` whose
grapheme contains no space or strippable character and does not start with `#`
is accepted as the pair (grapheme, phoneme). -/
theorem parse_configs_line_handling :
    (∀ rest : List Char, parseConfigLine ('#' :: rest) = none)
    ∧ (∀ line : List Char, (' ' : Char) ∉ pyStrip line → parseConfigLine line = none)
    ∧ (∀ (c : Char) (g p : List Char),
        c ≠ '#' →
        (∀ a ∈ c :: g, isStripChar a = false ∧ a ≠ ' ') →
        p ≠ [] →
        (∀ d, p.getLast? = some d → isStripChar d = false) →
        parseConfigLine (c :: g ++ ' ' :: p) = some (c :: g, String.mk p)) := by
  refine ⟨fun rest => by simp [parseConfigLine], fun line h => ?_, ?_⟩
  · by_cases hh : line.head? = some '#'
    · simp [parseConfigLine, hh]
    · simp only [parseConfigLine, if_neg hh, splitOnceOnSpace, if_neg h]
      by_cases hx : pyStrip line = []
      · simp [hx]
      · simp [hx]
  · intro c g p hc hg hp hlast
    have hhead : (c :: g ++ ' ' :: p : List Char).head? = some c := rfl
    have hstrip : pyStrip (c :: g ++ ' ' :: p) = c :: g ++ ' ' :: p := by
      apply pyStrip_eq_self
      · intro d hd
        rw [hhead] at hd
        obtain rfl : c = d := by injection hd
        exact (hg c (List.mem_cons_self _ _)).1
      · intro d hd
        apply hlast
        have e1 : (c :: g ++ ' ' :: p : List Char).getLast? = p.getLast? := by
          have e0 : (c :: g ++ ' ' :: p : List Char) = (c :: g) ++ ([' '] ++ p) := by
            simp
          rw [e0, List.getLast?_append_of_ne_nil _ (by simp),
            List.getLast?_append_of_ne_nil _ hp]
        rw [e1] at hd
        exact hd
    have hall : ∀ a ∈ (c :: g : List Char), (fun x => decide (x ≠ ' ')) a = true := by
      intro a ha
      simpa using (hg a ha).2
    have htake : (c :: g ++ ' ' :: p : List Char).takeWhile (fun x => x ≠ ' ')
        = c :: g := by
      rw [show (c :: g ++ ' ' :: p : List Char) = (c :: g) ++ (' ' :: p) from rfl,
        takeWhile_append_of_all _ _ _ hall]
      simp [List.takeWhile_cons]
    have hdrop : (c :: g ++ ' ' :: p : List Char).dropWhile (fun x => x ≠ ' ')
        = ' ' :: p := by
      rw [show (c :: g ++ ' ' :: p : List Char) = (c :: g) ++ (' ' :: p) from rfl,
        dropWhile_append_of_all _ _ _ hall]
      simp [List.dropWhile_cons]
    have hsplit : splitOnceOnSpace (c :: g ++ ' ' :: p) = [c :: g, p] := by
      unfold splitOnceOnSpace
      rw [if_pos (by simp)]
      rw [htake, hdrop]
      rfl
    simp only [parseConfigLine, hhead, hstrip, hsplit]
    rw [if_neg (by simp [hc])]
    simp [hp]

/-- Witness for C9: the amended acceptance clause applied to the concrete
line "a b". -/
theorem parse_configs_line_handling_witness :
    parseConfigLine ('a' :: [] ++ ' ' :: ['b']) = some ('a' :: [], String.mk ['b']) :=
  parse_configs_line_handling.2.2 'a' [] ['b'] (by decide) (by decide) (by decide)
    (by decide)

end MakePrnDict

namespace CleanJson

/-- A transcript token. -/
abbrev Word := List Char

/-- An utterance record: the `transcript` field the cleaner rewrites, plus all
other key-value pairs of the JSON object (speaker_id, audio_file_name,
start_ms, stop_ms, ...), which the source never touches. -/
structure Utterance where
  transcript : String
  extra : List (String × String)
deriving DecidableEq

/-- The fixed `translation_tags` set of `clean_utterance`. -/
def translationTags : List Word :=
  [String.toList "@eng@", String.toList "<ind:", String.toList "<eng:"]

/-- Python `s.split()`: split on whitespace runs, no empty parts. -/
def pySplit (l : Word) : List Word :=
  (l.splitOnP MakePrnDict.isStripChar).filter (fun w => w ≠ [])

/-- Python `re.search(r"\d", word)`: the word contains a digit. -/
def hasDigit (w : Word) : Bool := w.any Char.isDigit

/-- Python `word.isdigit()`: non-empty and all digits. -/
def isAllDigits (w : Word) : Bool := !w.isEmpty && w.all Char.isDigit

/-- The `word.replace(mark, "")` loop over the punctuation string: each mark
is a single character, so the net effect is dropping every punctuation
character (an empty punctuation list, like Python `None`, changes nothing). -/
def stripPunct (punct : Word) (w : Word) : Word :=
  w.filter (fun c => !(punct.contains c))

/-- Python `string.punctuation` plus the extra marks appended in
`clean_json_data` (the curly quotes, ellipsis, dashes and degree sign). -/
def punctuationToRemove : Word :=
  String.toList "!\"#$%&\x27()*+,-./:;<=>?@[\\]^_\x60\x7b|\x7d~…’“–”‘°"

/-- The `special_cases` list hard-coded in `clean_json_data`. -/
def silenceToken : Word := String.toList "<silence>"

/-- The `for word in words` loop of `clean_utterance`.  `none` models the two
early `return [], 0` exits (translation tag, or a digit inside a non-numeric
token); otherwise the cleaned words and the english-word count accumulate.
Special-case tokens are skipped before any other check; the English test uses
the word after punctuation stripping. -/
def cleanLoop (re : Bool) (ew : List Word) (punct : Word) (sc : List Word) :
    List Word → Option (List Word × Nat)
  | [] => some ([], 0)
  | w :: ws =>
    if sc.contains w then cleanLoop re ew punct sc ws
    else if translationTags.contains w then none
    else if hasDigit w && !isAllDigits w then none
    else
      let w2 := stripPunct punct w
      if re && decide (3 < w2.length) && ew.contains w2 then
        (cleanLoop re ew punct sc ws).map (fun r => (r.1, r.2 + 1))
      else
        (cleanLoop re ew punct sc ws).map (fun r => (w2 :: r.1, r.2))

/-- `clean_utterance`: lower-case the transcript, split on whitespace, run the
word loop; an early exit yields `([], 0)`. -/
def clean_utterance (u : Utterance) (re : Bool) (ew : List Word) (punct : Word)
    (sc : List Word) : List Word × Nat :=
  match cleanLoop re ew punct sc
      (pySplit ((String.toList u.transcript).map Char.toLower)) with
  | none => ([], 0)
  | some r => r

/-- Python `" ".join(clean_words).strip()`. -/
def joinStrip (ws : List Word) : Word :=
  MakePrnDict.pyStrip (List.intercalate [' '] ws)

/-- `is_valid_utterance`.  The `langid_identifier` argument is `none` for
Python `None`; reaching `langid_identifier.classify` with `None` would raise
`AttributeError`, modelled as the `none` result.  The classifier itself is
external (the `langid` library), so it is an opaque function argument
returning a language label and a probability.  The `> 0.1` ratio test and the
`> 0.5` probability test are Python float comparisons of exact small
rationals; they are modelled exactly, as `mkRat` comparisons, which agree with
IEEE double evaluation at every feasible magnitude. -/
def is_valid_utterance (cw : List Word) (ewc : Nat) (re ul : Bool)
    (identifier : Option (Word → String × ℚ)) : Option Bool :=
  if joinStrip cw = [] then some false
  else if re && decide (0 < cw.length) && decide (mkRat 1 10 < mkRat ewc cw.length) then
    some false
  else if re && ul then
    match identifier with
    | none => none
    | some cls =>
      let r := cls (joinStrip cw)
      if r.1 == "en" && decide (mkRat 1 2 < r.2) then some false else some true
  else some true

/-- The validity verdict as a total Boolean, for runs where the classifier is
present exactly when `remove_english and use_langid` holds — which is how
`clean_json_data` always calls it. -/
def validB (cw : List Word) (ewc : Nat) (re ul : Bool)
    (cls : Word → String × ℚ) : Bool :=
  if joinStrip cw = [] then false
  else if re && decide (0 < cw.length) && decide (mkRat 1 10 < mkRat ewc cw.length) then
    false
  else if re && ul then
    !((cls (joinStrip cw)).1 == "en" && decide (mkRat 1 2 < (cls (joinStrip cw)).2))
  else true

/-- What one utterance contributes to the output of `clean_json_data`:
`some` of the record with its transcript rewritten when it passes validation,
`none` when it is dropped. -/
def recordResult (re ul : Bool) (ew : List Word) (cls : Word → String × ℚ)
    (u : Utterance) : Option Utterance :=
  let r := clean_utterance u re ew punctuationToRemove [silenceToken]
  if validB r.1 r.2 re ul cls then
    some { u with transcript := String.mk (joinStrip r.1) }
  else none

/-- The `for utterance in json_data` loop of `clean_json_data`; `none` is a
crash inside `is_valid_utterance`. -/
def cleanLoopJson (re ul : Bool) (ew : List Word)
    (identifier : Option (Word → String × ℚ)) : List Utterance → Option (List Utterance)
  | [] => some []
  | u :: us =>
    let r := clean_utterance u re ew punctuationToRemove [silenceToken]
    match is_valid_utterance r.1 r.2 re ul identifier with
    | none => none
    | some true =>
        (cleanLoopJson re ul ew identifier us).map
          (fun rest => { u with transcript := String.mk (joinStrip r.1) } :: rest)
    | some false => cleanLoopJson re ul ew identifier us

/-- `clean_json_data`: the English word list is loaded only under
`remove_english` (otherwise `set()` is used), and the langid identifier is
constructed only under `remove_english and use_langid` (otherwise it stays
`None`).  Both external resources — the nltk word corpus and the langid
model — are opaque parameters. -/
def clean_json_data (englishWords : List Word) (cls : Word → String × ℚ)
    (re ul : Bool) (data : List Utterance) : Option (List Utterance) :=
  cleanLoopJson re ul (if re then englishWords else [])
    (if re && ul then some cls else none) data

lemma is_valid_eq (cw : List Word) (ewc : Nat) (re ul : Bool)
    (cls : Word → String × ℚ) :
    is_valid_utterance cw ewc re ul (if re && ul then some cls else none)
      = some (validB cw ewc re ul cls) := by
  unfold is_valid_utterance validB
  by_cases h1 : joinStrip cw = []
  · simp [h1]
  · rw [if_neg h1, if_neg h1]
    by_cases h2 : (re && decide (0 < cw.length)
        && decide (mkRat 1 10 < mkRat ewc cw.length)) = true
    · simp [h2]
    · rw [if_neg h2, if_neg h2]
      cases hru : re && ul with
      | false => simp [hru]
      | true =>
        simp only [hru, if_pos rfl, if_true]
        cases hb : (cls (joinStrip cw)).1 == "en"
            && decide (mkRat 1 2 < (cls (joinStrip cw)).2) <;>
          simp [hb]

lemma cleanLoopJson_eq (re ul : Bool) (ew : List Word) (cls : Word → String × ℚ) :
    ∀ data : List Utterance,
      cleanLoopJson re ul ew (if re && ul then some cls else none) data
        = some (data.filterMap (recordResult re ul ew cls)) := by
  intro data
  induction data with
  | nil => rfl
  | cons u us ih =>
    rw [cleanLoopJson, is_valid_eq, List.filterMap_cons]
    cases hv : validB (clean_utterance u re ew punctuationToRemove [silenceToken]).1
        (clean_utterance u re ew punctuationToRemove [silenceToken]).2 re ul cls with
    | true =>
      have hrec : recordResult re ul ew cls u
          = some { u with transcript := String.mk (joinStrip
              (clean_utterance u re ew punctuationToRemove [silenceToken]).1) } := by
        unfold recordResult
        rw [if_pos hv]
      rw [hrec, ih]
      rfl
    | false =>
      have hrec : recordResult re ul ew cls u = none := by
        unfold recordResult
        rw [if_neg (by simp [hv])]
      rw [hrec, ih]

lemma clean_json_data_eq (ew : List Word) (cls : Word → String × ℚ)
    (re ul : Bool) (data : List Utterance) :
    clean_json_data ew cls re ul data
      = some (data.filterMap (recordResult re ul (if re then ew else []) cls)) :=
  cleanLoopJson_eq re ul (if re then ew else []) cls data

lemma validB_false (cw : List Word) (ewc : Nat) (ul : Bool)
    (cls : Word → String × ℚ) :
    validB cw ewc false ul cls = !decide (joinStrip cw = []) := by
  unfold validB
  by_cases h1 : joinStrip cw = [] <;> simp [h1]

lemma recordResult_false (ul ul' : Bool) (ew : List Word)
    (cls cls' : Word → String × ℚ) (u : Utterance) :
    recordResult false ul ew cls u = recordResult false ul' ew cls' u := by
  unfold recordResult
  simp only [validB_false]

lemma filterMap_sublist (f : Utterance → Option Utterance) (l : List Utterance) :
    List.Sublist (l.filterMap f) (l.map (fun u => (f u).getD u)) := by
  induction l with
  | nil => simp
  | cons u us ih =>
    rw [List.filterMap_cons, List.map_cons]
    cases hu : f u with
    | none => exact List.Sublist.cons _ ih
    | some v => exact List.Sublist.cons₂ _ ih

lemma cleanLoop_abort (re : Bool) (ew : List Word) (punct : Word) (sc : List Word)
    (w : Word) (hsc : sc.contains w = false)
    (htr : translationTags.contains w = true ∨ (hasDigit w && !isAllDigits w) = true) :
    ∀ ws : List Word, w ∈ ws → cleanLoop re ew punct sc ws = none := by
  intro ws
  induction ws with
  | nil => intro h; simp at h
  | cons x xs ih =>
    intro hmem
    rcases List.mem_cons.mp hmem with rfl | hmem
    · have hsc' : ¬ w ∈ sc := by simpa using hsc
      rcases htr with h | h
      · have h' : w ∈ translationTags := by simpa using h
        simp [cleanLoop, hsc', h']
      · by_cases ht : w ∈ translationTags
        · simp [cleanLoop, hsc', ht]
        · simp [cleanLoop, hsc', ht, h]
    · by_cases h1 : x ∈ sc
      · simp [cleanLoop, h1, ih hmem]
      · simp [cleanLoop, h1, ih hmem]

/-- Counterexample for C5: the claim quantifies over every configuration, but
`clean_utterance` checks `special_cases` before the translation-marker and
digit tests, so a configuration whose `special_cases` contains "@eng@" skips
that token instead of dropping the utterance: the example transcript then
yields `(["hello"], 0)`, not `([], 0)`. -/
theorem clean_utterance_marker_shielded :
    clean_utterance ⟨"@eng@ hello", []⟩ false [] [] [String.toList "@eng@"]
      = ([String.toList "hello"], 0)
    ∧ clean_utterance ⟨"@eng@ hello", []⟩ false [] [] [String.toList "@eng@"]
      ≠ (([] : List Word), 0) := by
  refine ⟨by decide, by decide⟩

/-- Claim C5 (amended): for every utterance and configuration, as soon as any
token that is not listed in `special_cases` is a translation marker or
contains a digit without being purely numeric, `clean_utterance` returns
`([], 0)`; with the actual configuration used by `clean_json_data`
(special_cases = ["<silence>"]) the example "@eng@ hello" is dropped, and a
purely numeric token such as "1234" is kept. -/
theorem clean_utterance_drop_rules :
    (∀ (u : Utterance) (re : Bool) (ew : List Word) (punct : Word) (sc : List Word)
        (w : Word),
        w ∈ pySplit ((String.toList u.transcript).map Char.toLower) →
        sc.contains w = false →
        (translationTags.contains w = true ∨ (hasDigit w && !isAllDigits w) = true) →
        clean_utterance u re ew punct sc = ([], 0))
    ∧ clean_utterance ⟨"@eng@ hello", []⟩ false [] punctuationToRemove [silenceToken]
        = ([], 0)
    ∧ clean_utterance ⟨"phone 1234", []⟩ false [] punctuationToRemove [silenceToken]
        = ([String.toList "phone", String.toList "1234"], 0) := by
  refine ⟨fun u re ew punct sc w hmem hsc htr => ?_, by decide, by decide⟩
  unfold clean_utterance
  rw [cleanLoop_abort re ew punct sc w hsc htr _ hmem]

/-- Witness for C5: the general drop rule applied to the token "@eng@" of
"@eng@ hello" under the empty special-case list. -/
theorem clean_utterance_drop_rules_witness :
    clean_utterance ⟨"@eng@ hello", []⟩ false [] [] [] = ([], 0) :=
  clean_utterance_drop_rules.1 ⟨"@eng@ hello", []⟩ false [] [] []
    (String.toList "@eng@") (by decide) (by decide) (Or.inl (by decide))

/-- Claim C6: with remove_english enabled, at least one kept token, and an
english ratio strictly above 1/10, the utterance is rejected; at a ratio of
exactly 1/10 (1 flagged word in 10 kept tokens) this rule does not reject,
and with the langid rule off the utterance is accepted. -/
theorem is_valid_utterance_english_fraction :
    (∀ (cw : List Word) (ewc : Nat) (ul : Bool)
        (idf : Option (Word → String × ℚ)),
        cw ≠ [] → mkRat 1 10 < mkRat ewc cw.length →
        is_valid_utterance cw ewc true ul idf = some false)
    ∧ is_valid_utterance
        (List.map String.toList ["a", "b", "c", "d", "e", "f", "g", "h", "i", "j"])
        1 true false none = some true := by
  refine ⟨fun cw ewc ul idf hne hratio => ?_, by decide⟩
  unfold is_valid_utterance
  by_cases h1 : joinStrip cw = []
  · rw [if_pos h1]
  · have h2 : (true && decide (0 < cw.length)
        && decide (mkRat 1 10 < mkRat ewc cw.length)) = true := by
      simp [List.length_pos.mpr hne, hratio]
    rw [if_neg h1, if_pos h2]

/-- Witness for C6: one flagged English word among five kept tokens, ratio
1/5 > 1/10, is rejected. -/
theorem is_valid_utterance_english_fraction_witness :
    is_valid_utterance (List.map String.toList ["a", "b", "c", "d", "e"]) 1
      true false none = some false :=
  is_valid_utterance_english_fraction.1 _ 1 false none (by decide) (by decide)

/-- Claim C7: `clean_json_data` is per-record: its output is exactly the
input filtered through `recordResult`, and hence a sublist — same relative
order, no merging, no duplication — of the input list as it stands after the
call (Python mutates surviving records in place, so the post-call input is
the map below). -/
theorem clean_json_data_order_preserving (ew : List Word)
    (cls : Word → String × ℚ) (re ul : Bool) (data : List Utterance) :
    clean_json_data ew cls re ul data
      = some (data.filterMap (recordResult re ul (if re then ew else []) cls))
    ∧ List.Sublist ((clean_json_data ew cls re ul data).getD [])
        (data.map (fun u =>
          ((recordResult re ul (if re then ew else []) cls) u).getD u)) := by
  refine ⟨clean_json_data_eq ew cls re ul data, ?_⟩
  rw [clean_json_data_eq]
  exact filterMap_sublist _ _

/-- Claim C8: every record surviving `clean_json_data` is an input record
with every field other than `transcript` unchanged; only `transcript` is
rewritten, to the rejoined cleaned text of that record. -/
theorem clean_json_data_frame (ew : List Word) (cls : Word → String × ℚ)
    (re ul : Bool) (data : List Utterance) (v : Utterance)
    (hv : v ∈ (clean_json_data ew cls re ul data).getD []) :
    ∃ u ∈ data, v.extra = u.extra ∧
      v.transcript = String.mk (joinStrip
        (clean_utterance u re (if re then ew else [])
          punctuationToRemove [silenceToken]).1) := by
  rw [clean_json_data_eq] at hv
  simp only [Option.getD_some] at hv
  obtain ⟨u, hu, hru⟩ := List.mem_filterMap.mp hv
  refine ⟨u, hu, ?_⟩
  unfold recordResult at hru
  by_cases hvb : validB
      (clean_utterance u re (if re then ew else []) punctuationToRemove [silenceToken]).1
      (clean_utterance u re (if re then ew else []) punctuationToRemove [silenceToken]).2
      re ul cls = true
  · rw [if_pos hvb] at hru
    obtain rfl := (Option.some.injEq _ _).mp hru
    exact ⟨rfl, rfl⟩
  · rw [if_neg hvb] at hru
    exact absurd hru (by simp)

/-- Witness for C8: the record for "bonjour" with a speaker_id field survives
with that field intact and its transcript rewritten to the cleaned text. -/
theorem clean_json_data_frame_witness :
    ∃ u ∈ [(⟨"bonjour", [("speaker_id", "S1")]⟩ : Utterance)],
      (⟨"bonjour", [("speaker_id", "S1")]⟩ : Utterance).extra = u.extra ∧
      (⟨"bonjour", [("speaker_id", "S1")]⟩ : Utterance).transcript
        = String.mk (joinStrip
          (clean_utterance u false [] punctuationToRemove [silenceToken]).1) :=
  clean_json_data_frame [] (fun _ => ("", 0)) false false
    [⟨"bonjour", [("speaker_id", "S1")]⟩] ⟨"bonjour", [("speaker_id", "S1")]⟩
    (by decide)

/-- Claim C10: with remove_english disabled, `clean_json_data` never consults
the language classifier — its result is the same for any two classifiers and
for use_langid true or false — and the `None` identifier is never
dereferenced (the run cannot crash, witnessed by `isSome`). -/
theorem clean_json_data_langid_inert (ew ew2 : List Word)
    (cls cls2 : Word → String × ℚ) (ul : Bool) (data : List Utterance) :
    clean_json_data ew cls false ul data = clean_json_data ew2 cls2 false false data
    ∧ (clean_json_data ew cls false ul data).isSome = true := by
  rw [clean_json_data_eq, clean_json_data_eq]
  refine ⟨?_, rfl⟩
  have : ∀ u, recordResult false ul (if false = true then ew else []) cls u
      = recordResult false false (if false = true then ew2 else []) cls2 u := by
    intro u
    exact recordResult_false ul false [] cls cls2 u
  rw [List.filterMap_congr fun u _ => this u]

end CleanJson
